import Mathlib

/-!
Verification of the conco command dispatcher (header-only C++ library).

The definitions below are a shallow embedding of the code in
`src/conco/conco_tokenizer.hpp`, `src/conco/conco.hpp` and
`src/conco/conco_types.hpp`.  Text is modelled as `List Char`; the
tokenizer state is the remaining unconsumed text; C strings are the
list of characters before the terminating NUL, with reads past the end
yielding the NUL character.
-/

namespace Conco

/-- NUL character, the C string terminator. -/
def nul : Char := Char.ofNat 0

/-- Double quote character. -/
def dquote : Char := Char.ofNat 34

/-- Single quote character. -/
def squote : Char := Char.ofNat 39

/-- Backslash character. -/
def backslash : Char := Char.ofNat 92

/-- Opening brace character. -/
def lbrace : Char := Char.ofNat 123

/-- Closing brace character. -/
def rbrace : Char := Char.ofNat 125

/-- `tokenizer::is_whitespace`: characters considered whitespace or
delimiters between tokens (`ch <= ' ' || ch == ','`). -/
def is_whitespace (c : Char) : Bool := c.val ≤ 32 || c = ','

/-- `tokenizer::is_ident_term`: characters that terminate an identifier
token. -/
def is_ident_term (c : Char) : Bool :=
  is_whitespace c || c = ';' || c = '=' || c = dquote || c = squote || c = lbrace || c = rbrace

/-- `tokenizer::consume_whitespace`: drop the leading whitespace of the
remaining text. -/
def consume_whitespace (s : List Char) : List Char := s.dropWhile is_whitespace

/-- The tokenizer state: the remaining unconsumed slice of the input. -/
structure tokenizer where
  text : List Char
deriving DecidableEq, Repr

/-- The tokenizer constructor: store the text and consume leading
whitespace. -/
def tokenizer.make (s : List Char) : tokenizer := ⟨consume_whitespace s⟩

/-- `tokenizer::next_char_is`. -/
def tokenizer.next_char_is (t : tokenizer) (c : Char) : Bool := t.text.head? = some c

/-- `tokenizer::consume_char_if`: if the next character is `c`, consume
it plus following whitespace and report `true`. -/
def tokenizer.consume_char_if (t : tokenizer) (c : Char) : Bool × tokenizer :=
  if t.next_char_is c then (true, ⟨consume_whitespace (t.text.drop 1)⟩) else (false, t)

/-- `tokenizer::extract_token`: emit the first `len` characters (with
the enclosing delimiters stripped when `trim_ends`), consume them plus
following whitespace.  A length past the end empties the tokenizer and
yields no token. -/
def tokenizer.extract_token (t : tokenizer) (len : Nat) (trim_ends : Bool) :
    Option (List Char) × tokenizer :=
  if len > t.text.length then (none, ⟨[]⟩)
  else
    let tok := if trim_ends then (t.text.drop 1).take (len - 2) else t.text.take len
    (some tok, ⟨consume_whitespace (t.text.drop len)⟩)

/-- The scanning loop of `tokenizer::parse_identifier`: number of
characters until an unescaped terminator, `prev` being the previously
read character (an escaped backslash is recorded as NUL). -/
def ident_len : List Char → Char → Nat
  | [], _ => 0
  | c :: rest, prev =>
    if prev ≠ backslash then
      if is_ident_term c then 0 else ident_len rest c + 1
    else
      ident_len rest (if c = backslash then nul else c) + 1

/-- `tokenizer::parse_identifier`. -/
def tokenizer.parse_identifier (t : tokenizer) : Option (List Char) × tokenizer :=
  t.extract_token (ident_len t.text nul) false

/-- The scanning loop of `tokenizer::parse_quoted_string` applied to the
text after the opening quote: number of characters consumed up to and
including the matching close quote `q`, or `none` if it never closes. -/
def quoted_len (q : Char) : List Char → Char → Option Nat
  | [], _ => none
  | c :: rest, prev =>
    if prev ≠ backslash then
      if c = q then some 1
      else (quoted_len q rest c).map (· + 1)
    else
      (quoted_len q rest (if c = backslash then nul else c)).map (· + 1)

/-- `tokenizer::parse_quoted_string`: an unterminated quote empties the
tokenizer and yields no token. -/
def tokenizer.parse_quoted_string (t : tokenizer) : Option (List Char) × tokenizer :=
  match quoted_len (t.text.headD nul) (t.text.drop 1) nul with
  | none => (none, ⟨[]⟩)
  | some k => t.extract_token (k + 1) true

/-- The scanning loop of `tokenizer::parse_block` applied to the text
after the opening brace: number of characters consumed up to and
including the brace closing the block, tracking nesting `depth`, the
active quote character (`nul` when outside quotes) and the previous
character.  An unescaped unquoted semicolon or running out of input
yields `none`. -/
def block_len (depth : Nat) (quote : Char) (prev : Char) : List Char → Option Nat
  | [] => none
  | c :: rest =>
    if prev ≠ backslash then
      if quote ≠ nul then
        if c = quote then (block_len depth nul c rest).map (· + 1)
        else (block_len depth quote c rest).map (· + 1)
      else
        if c = dquote ∨ c = squote then (block_len depth c c rest).map (· + 1)
        else if c = ';' then none
        else if c = lbrace then (block_len (depth + 1) quote c rest).map (· + 1)
        else if c = rbrace then
          if depth = 1 then some 1
          else (block_len (depth - 1) quote c rest).map (· + 1)
        else (block_len depth quote c rest).map (· + 1)
    else
      (block_len depth quote (if c = backslash then nul else c) rest).map (· + 1)

/-- `tokenizer::parse_block`: an unterminated block (or an unescaped
unquoted semicolon inside it) empties the tokenizer and yields no
token. -/
def tokenizer.parse_block (t : tokenizer) : Option (List Char) × tokenizer :=
  match block_len 1 nul nul (t.text.drop 1) with
  | none => (none, ⟨[]⟩)
  | some k => t.extract_token (k + 1) true

/-- `tokenizer::next`: produce the next token, or `none` at end of
input, at a semicolon, or on a malformed quote/block. -/
def tokenizer.next (t : tokenizer) : Option (List Char) × tokenizer :=
  match t.text with
  | [] => (none, t)
  | c :: _ =>
    if c = dquote ∨ c = squote then t.parse_quoted_string
    else if c = lbrace then t.parse_block
    else if c = '=' then t.extract_token 1 false
    else if c = ';' then (none, t)
    else t.parse_identifier

/-- The result of the `(k+1)`-th call of `next` starting from `t`. -/
def tokenizer.next_n (t : tokenizer) : Nat → Option (List Char) × tokenizer
  | 0 => t.next
  | k + 1 => (t.next).2.next_n k

/-- Drain the tokenizer, collecting emitted tokens, with explicit fuel
bounding the number of `next` calls. -/
def tokens_fuel : tokenizer → Nat → List (List Char)
  | _, 0 => []
  | t, k + 1 =>
    match t.next with
    | (none, _) => []
    | (some tok, t') => tok :: tokens_fuel t' k

/-! Integer conversions (`from_string (tag<T>)` and
`to_chars (tag<T>)` of `conco_types.hpp`, specialised to C++ `int`,
signed 32 bits). -/

/-- Smallest C++ `int` value. -/
def int_min : Int := -2147483648

/-- Largest C++ `int` value. -/
def int_max : Int := 2147483647

/-- Numeric value of a digit character (as `std::from_chars` accepts:
decimal digits and letters in either case). -/
def digit_val (c : Char) : Option Nat :=
  if '0' ≤ c ∧ c ≤ '9' then some (c.toNat - 48)
  else if 'a' ≤ c ∧ c ≤ 'z' then some (c.toNat - 87)
  else if 'A' ≤ c ∧ c ≤ 'Z' then some (c.toNat - 55)
  else none

/-- Maximal leading run of digits valid in the given base, as values. -/
def take_digits (base : Nat) : List Char → List Nat
  | [] => []
  | c :: rest =>
    match digit_val c with
    | some d => if d < base then d :: take_digits base rest else []
    | none => []

/-- `std::from_chars` for `int` in the given base: an optional minus
sign, then a non-empty maximal digit run (trailing characters are
ignored); fails when there is no digit or the value overflows. -/
def from_chars_int (base : Nat) (s : List Char) : Option Int :=
  let neg : Bool := s.head? = some '-'
  let ds := take_digits base (if neg then s.drop 1 else s)
  if ds.isEmpty then none
  else
    let m : Nat := ds.foldl (fun a d => a * base + d) 0
    let v : Int := if neg then -(m : Int) else (m : Int)
    if v < int_min ∨ int_max < v then none else some v

/-- `from_string(tag<int>, str)`: detect a `0x`/`0b` base marker, then
run `std::from_chars`. -/
def from_string_int (s : List Char) : Option Int :=
  if 2 ≤ s.length ∧ s.headD nul = '0' then
    if s.getD 1 nul = 'x' ∨ s.getD 1 nul = 'X' then from_chars_int 16 (s.drop 2)
    else if s.getD 1 nul = 'b' ∨ s.getD 1 nul = 'B' then from_chars_int 2 (s.drop 2)
    else from_chars_int 10 s
  else from_chars_int 10 s

/-- Decimal digit characters of a natural number. -/
def nat_dec (n : Nat) : List Char := Nat.toDigits 10 n

/-- Decimal representation of an integer, as written by
`std::to_chars`. -/
def int_dec (v : Int) : List Char :=
  if v < 0 then '-' :: nat_dec v.natAbs else nat_dec v.toNat

/-- `to_chars(tag<int>, buff, value)`: write the decimal digits into
`buff` leaving room for the NUL terminator; `some` holds the resulting
C string contents, `none` means the digits did not fit (the source
returns the written length plus one, or zero on failure). -/
def to_chars_int (buff_size : Nat) (value : Int) : Option (List Char) :=
  if (int_dec value).length ≤ buff_size - 1 then some (int_dec value) else none

/-- The quote kind `to_chars(tag<std::string_view>, ...)` encloses its
output in: the one occurring less often inside the value. -/
def quote_choice (value : List Char) : Char :=
  if value.countP (· = dquote) ≤ value.countP (· = squote) then dquote else squote

/-- `to_chars(tag<std::string_view>, buff, value)`: always wraps the
value in the quote kind occurring less often inside it, escaping that
quote and the backslash; fails when `buff` is smaller than
`value.size() + 3 + max(#doubles, #singles)`.  `some` holds the written
C string contents (the source returns its length plus one for the NUL,
or zero on failure). -/
def to_chars_string (buff_size : Nat) (value : List Char) : Option (List Char) :=
  let num_single_quotes := value.countP (· = squote)
  let num_double_quotes := value.countP (· = dquote)
  let num_escapes := max num_double_quotes num_single_quotes
  if buff_size < value.length + 3 + num_escapes then none
  else
    let quote_char := quote_choice value
    let body := (value.map fun ch =>
      if ch = quote_char ∨ ch = backslash then [backslash, ch] else [ch]).flatten
    some (quote_char :: body ++ [quote_char])

/-! Dispatcher embedding (`conco.hpp`), specialised to the shape every
claim uses: commands whose handlers take `arg_count` C++ `int`
parameters and return an `int`.  `name_and_args` is the contents of the
registration C string. -/

/-- `conco::result`. -/
inductive result
  | success
  | command_not_found
  | argument_parsing_error
  | not_enough_arguments
  | no_matching_overload
deriving DecidableEq, Repr

/-- `conco::command` together with the parts of its `descriptor` the
dispatcher reads: the registration string, the parameter count and the
type-erased handler (specialised to `int` parameters and result). -/
structure command where
  name_and_args : List Char
  arg_count : Nat
  handler : List Int → Int

/-- `conco::output`.  The caller buffer span is modelled by its size
plus the C string contents currently in it. -/
structure output where
  buffer_size : Nat
  buffer : List Char
  cmd : Option Nat
  arg_error_mask : Nat
  arg_count : Nat
  not_enough_arguments : Bool
  result_error : Bool
deriving DecidableEq, Repr

/-- `output::has_error`. -/
def output.has_error (o : output) : Bool :=
  o.arg_error_mask ≠ 0 || o.not_enough_arguments || o.result_error

/-- The fresh `output` made by the convenience `execute` overload from
a caller buffer. -/
def output.init (buffer_size : Nat) : output :=
  ⟨buffer_size, [], none, 0, 0, false, false⟩

/-- `out = { out.buffer, &*cmd_iter }`: reset the report before an
overload attempt, keeping the buffer and recording the candidate. -/
def output.reset_for (o : output) (idx : Nat) : output :=
  ⟨o.buffer_size, o.buffer, some idx, 0, 0, false, false⟩

/-- `command::operator==`: compare the query against the registration
C string character by character; reading the registration past its end
yields NUL.  Matches when the whole query was consumed and the
registration continues with an identifier terminator (or ends). -/
def command_eq (name_and_args : List Char) : List Char → Bool
  | [] => is_ident_term (name_and_args.headD nul)
  | c :: rest =>
    if c = nul then false
    else if c = name_and_args.headD nul then command_eq name_and_args.tail rest
    else false

/-- The default-value block of `next_arg_value`: consume the optional
parameter name from the default tokenizer and, after an equals sign,
its default value. -/
def default_arg_lookup (d : tokenizer) : Option (List Char) × tokenizer :=
  match d.next with
  | (some _, d1) =>
    let (took, d2) := d1.consume_char_if '='
    if took then d2.next else (none, d2)
  | (none, d1) => (none, d1)

/-- `detail::next_arg_value`: take the next live argument token,
falling back to the value found in the default tokenizer when the live
tokenizer is exhausted. -/
def next_arg_value (args d : tokenizer) : Option (List Char) × tokenizer × tokenizer :=
  let (default_value, d') := default_arg_lookup d
  let (arg, args') := args.next
  let value := match arg with
    | some t => some t
    | none => default_value
  (value, args', d')

/-- `detail::parse_arg<int>`: obtain a raw token (live or default);
when present, count it and parse it, recording a failure bit at the
current position on conversion failure; when absent, set the
not-enough-arguments flag.  The bound value defaults to zero on any
failure. -/
def parse_arg (args d : tokenizer) (o : output) : Int × tokenizer × tokenizer × output :=
  let r := next_arg_value args d
  match r.1 with
  | some s =>
    match from_string_int s with
    | some v => (v, r.2.1, r.2.2, { o with arg_count := o.arg_count + 1 })
    | none =>
      (0, r.2.1, r.2.2,
        { o with
          arg_count := o.arg_count + 1,
          arg_error_mask := o.arg_error_mask ||| (1 <<< o.arg_count) })
  | none => (0, r.2.1, r.2.2, { o with not_enough_arguments := true })

/-- `detail::make_args_tuple`: bind each parameter position in turn,
left to right. -/
def make_args_tuple : Nat → tokenizer → tokenizer → output →
    List Int × tokenizer × tokenizer × output
  | 0, args, d, o => ([], args, d, o)
  | n + 1, args, d, o =>
    let p := parse_arg args d o
    let rest := make_args_tuple n p.2.1 p.2.2.1 p.2.2.2
    (p.1 :: rest.1, rest.2)

/-- `detail::function_invoker::call` plus `detail::apply` for an
`int`-returning handler: bind the arguments, abandon the candidate on
any binding error, otherwise invoke the handler and stringify the
result into the buffer when it is non-empty.  Also returns the bound
argument list handed to the handler (`none` when it was not invoked). -/
def invoker_call (c : command) (command_name : List Char) (tok : tokenizer) (o : output) :
    Bool × output × Option (List Int) :=
  let default_args := tokenizer.make (c.name_and_args.drop command_name.length)
  let b := make_args_tuple c.arg_count tok default_args o
  let args_tuple := b.1
  let o1 := b.2.2.2
  if o1.has_error then (false, o1, none)
  else
    let r := c.handler args_tuple
    let o2 :=
      if o1.buffer_size ≠ 0 then
        match to_chars_int o1.buffer_size r with
        | some s => { o1 with buffer := s, result_error := false }
        | none => { o1 with result_error := true }
      else o1
    (true, o2, some args_tuple)

/-- The overload loop of `execute`: try each same-named candidate in
table order, resetting the report before each attempt, committing to
the first successful one.  Returns whether one succeeded, how many
candidates were tried, the report of the last attempt, and the
arguments handed to the invoked handler. -/
def run_overloads (command_name : List Char) (tok : tokenizer) :
    List command → Nat → output → Bool × Nat × output × Option (List Int)
  | [], _, o => (false, 0, o, none)
  | c :: rest, idx, o =>
    let r := invoker_call c command_name tok (o.reset_for idx)
    if r.1 then (true, 1, r.2.1, r.2.2)
    else
      match rest with
      | [] => (false, 1, r.2.1, none)
      | c' :: _ =>
        if command_eq c'.name_and_args command_name then
          let rr := run_overloads command_name tok rest (idx + 1) r.2.1
          (rr.1, rr.2.1 + 1, rr.2.2)
        else (false, 1, r.2.1, none)

/-- The command name of a line: the first token
(`tok.next().value_or("")` in `execute`). -/
def command_name_of (cmd_line : List Char) : List Char :=
  ((tokenizer.make cmd_line).next).1.getD []

/-- The argument tokenizer of a line: the line tokenizer advanced past
the command name. -/
def args_tok_of (cmd_line : List Char) : tokenizer :=
  ((tokenizer.make cmd_line).next).2

/-- `conco::execute(commands, cmd_line, out)`: tokenize the command
name, locate the first descriptor matching it, run the overload loop,
and classify the failure when no overload succeeded. -/
def execute (commands : List command) (cmd_line : List Char) (out : output) :
    result × output × Option (List Int) :=
  let command_name := command_name_of cmd_line
  let tok := args_tok_of cmd_line
  match commands.findIdx? (fun c => command_eq c.name_and_args command_name) with
  | none => (.command_not_found, out, none)
  | some i =>
    let r := run_overloads command_name tok (commands.drop i) i out
    if r.1 then (.success, r.2.2)
    else if r.2.1 = 1 then
      ((if (r.2.2.1).not_enough_arguments then .not_enough_arguments
        else .argument_parsing_error), r.2.2.1, none)
    else if 1 < r.2.1 then (.no_matching_overload, r.2.2.1, none)
    else (.command_not_found, r.2.2.1, none)

/-- The convenience `execute` overload wrapping a caller buffer in a
fresh `output`. -/
def execute_buf (commands : List command) (cmd_line : List Char) (buffer_size : Nat) :
    result × output × Option (List Int) :=
  execute commands cmd_line (output.init buffer_size)

/-! Definitions taken from the specification's words, for comparison
with the code-derived definitions above. -/

/-- Modelled from the spec: the identifier portion of a registration
string, which "ends at the first terminator character". -/
def spec_identifier (name_and_args : List Char) : List Char :=
  name_and_args.takeWhile (fun c => !is_ident_term c)

/-- Modelled from the spec: accumulator loop splitting a line into its
"whitespace/comma-separated words". -/
def words_go (cur : List Char) : List Char → List (List Char)
  | [] => if cur.isEmpty then [] else [cur.reverse]
  | c :: rest =>
    if is_whitespace c then
      if cur.isEmpty then words_go [] rest else cur.reverse :: words_go [] rest
    else words_go (c :: cur) rest

/-- Modelled from the spec: the whitespace/comma-separated words of a
line, in order. -/
def words_of (s : List Char) : List (List Char) := words_go [] s

/-- A handler summing its (integer) arguments, standing in for the
`sum`-style handlers of the repository's tests. -/
def sum_handler : List Int → Int := fun l => l.foldl (· + ·) 0

/-- The three same-named overloads of claim C1, registered under the
name `f` with four, three and two integer parameters, in that order. -/
def overload_cmds : List command :=
  [⟨"f".toList, 4, sum_handler⟩, ⟨"f".toList, 3, sum_handler⟩, ⟨"f".toList, 2, sum_handler⟩]

/-- The single four-parameter command of claims C3 and C4. -/
def default_cmds : List command := [⟨"f x=1 y=2 z=3 w=4".toList, 4, sum_handler⟩]

/-- A four-parameter command registered without defaults. -/
def plain4_cmds : List command := [⟨"f".toList, 4, sum_handler⟩]

/-- The single two-parameter `sum` command of claim C5. -/
def sum_cmds : List command := [⟨"sum".toList, 2, sum_handler⟩]

/-! Theorems. -/

/-- C3: with `f x=1 y=2 z=3 w=4` registered against a four-integer
handler, executing `f` invokes it with arguments (1,2,3,4), `f 10` with
(10,2,3,4) and `f 10 20 30 40` with (10,20,30,40); in general each
parameter position binds the next token of the live argument tokenizer
when one is present, and otherwise the value found in the tokenizer
over the registered default text. -/
theorem claim_C3 :
    ((execute_buf default_cmds "f".toList 0).1 = .success ∧
      (execute_buf default_cmds "f".toList 0).2.2 = some [1, 2, 3, 4]) ∧
    ((execute_buf default_cmds "f 10".toList 0).1 = .success ∧
      (execute_buf default_cmds "f 10".toList 0).2.2 = some [10, 2, 3, 4]) ∧
    ((execute_buf default_cmds "f 10 20 30 40".toList 0).1 = .success ∧
      (execute_buf default_cmds "f 10 20 30 40".toList 0).2.2 = some [10, 20, 30, 40]) ∧
    (∀ args d : tokenizer,
      (next_arg_value args d).1 =
        match (args.next).1 with
        | some t => some t
        | none => (default_arg_lookup d).1) := by
  refine ⟨⟨by decide, by decide⟩, ⟨by decide, by decide⟩, ⟨by decide, by decide⟩, ?_⟩
  intro args d
  unfold next_arg_value
  rcases h1 : default_arg_lookup d with ⟨dv, d'⟩
  rcases h2 : args.next with ⟨a, args'⟩
  simp

/-- C4: executing `f abc 2 xyz 4` against a single four-integer-handler
command sets exactly bits 0 and 2 of the argument-error bitmask and
returns `argument_parsing_error`; binding continued through all four
positions (the count of obtained arguments is 4) and the
not-enough-arguments flag stays clear. -/
theorem claim_C4 :
    (execute_buf plain4_cmds "f abc 2 xyz 4".toList 0).1 = .argument_parsing_error ∧
    (execute_buf plain4_cmds "f abc 2 xyz 4".toList 0).2.1.arg_error_mask = 5 ∧
    (execute_buf plain4_cmds "f abc 2 xyz 4".toList 0).2.1.arg_count = 4 ∧
    (execute_buf plain4_cmds "f abc 2 xyz 4".toList 0).2.1.not_enough_arguments = false :=
  ⟨by decide, by decide, by decide, by decide⟩

/-- C5: `sum 123 456` formats the result `579`, which together with the
NUL terminator needs four bytes; with any non-empty caller buffer of
fewer than four bytes the call still returns `success` and only the
result-formatting-failure flag of the report is set. -/
theorem claim_C5 (n : Nat) (h0 : 0 < n) (h3 : n < 4) :
    (execute_buf sum_cmds "sum 123 456".toList n).1 = .success ∧
    (execute_buf sum_cmds "sum 123 456".toList n).2.1.result_error = true ∧
    (execute_buf sum_cmds "sum 123 456".toList n).2.1.arg_error_mask = 0 ∧
    (execute_buf sum_cmds "sum 123 456".toList n).2.1.not_enough_arguments = false := by
  interval_cases n
  · exact ⟨by decide, by decide, by decide, by decide⟩
  · exact ⟨by decide, by decide, by decide, by decide⟩
  · exact ⟨by decide, by decide, by decide, by decide⟩

/-- Witness for C5 at the buffer exactly one byte too small for the
digits plus terminator. -/
theorem claim_C5_witness :
    0 < 3 ∧ 3 < 4 ∧
    ((execute_buf sum_cmds "sum 123 456".toList 3).1 = .success ∧
      (execute_buf sum_cmds "sum 123 456".toList 3).2.1.result_error = true ∧
      (execute_buf sum_cmds "sum 123 456".toList 3).2.1.arg_error_mask = 0 ∧
      (execute_buf sum_cmds "sum 123 456".toList 3).2.1.not_enough_arguments = false) :=
  ⟨by decide, by decide, claim_C5 3 (by decide) (by decide)⟩

/-- C9, counterexample: formatting the string `abc` — which contains no
delimiter-significant character (no identifier terminator, no
backslash) — into an ample buffer does not write it as-is: the output
is enclosed in double quotes. -/
theorem claim_C9_cex :
    (∀ c ∈ "abc".toList, is_ident_term c = false ∧ c ≠ backslash) ∧
    to_chars_string 64 "abc".toList = some ("\"abc\"".toList) ∧
    "\"abc\"".toList ≠ "abc".toList := by
  decide

/-- C10: when the remaining text begins with an unmatched closing
bracket, `next` emits a present zero-length token and leaves the state
unchanged, so every further call returns the same empty token and a
drain-until-absent loop never terminates. -/
theorem claim_C10 (t : tokenizer) (h : t.text.head? = some rbrace) :
    t.next = (some [], t) ∧ ∀ k, t.next_n k = (some [], t) := by
  obtain ⟨txt⟩ := t
  cases txt with
  | nil => simp at h
  | cons c rest =>
    simp only [List.head?_cons, Option.some.injEq] at h
    subst h
    have hstep : tokenizer.next ⟨rbrace :: rest⟩ = (some [], ⟨rbrace :: rest⟩) := by
      have e1 : ¬(rbrace = dquote ∨ rbrace = squote) := by decide
      have e2 : ¬rbrace = lbrace := by decide
      have e3 : ¬rbrace = '=' := by decide
      have e4 : ¬rbrace = ';' := by decide
      have e5 : is_ident_term rbrace = true := by decide
      have e6 : is_whitespace rbrace = false := by decide
      simp [tokenizer.next, e1, e2, e3, e4, tokenizer.parse_identifier, ident_len,
        (by decide : ¬nul = backslash), e5, tokenizer.extract_token, consume_whitespace,
        List.dropWhile, e6]
    refine ⟨hstep, ?_⟩
    intro k
    induction k with
    | zero => exact hstep
    | succ k ih =>
      show ((tokenizer.mk (rbrace :: rest)).next).2.next_n k = _
      rw [hstep]
      exact ih

/-- Witness for C10: a state whose text is an unmatched closing bracket
followed by more input. -/
theorem claim_C10_witness :
    (⟨[rbrace, 'x']⟩ : tokenizer).next = (some [], ⟨[rbrace, 'x']⟩) ∧
    (⟨[rbrace, 'x']⟩ : tokenizer).next_n 5 = (some [], ⟨[rbrace, 'x']⟩) :=
  ⟨(claim_C10 ⟨[rbrace, 'x']⟩ (by decide)).1,
   (claim_C10 ⟨[rbrace, 'x']⟩ (by decide)).2 5⟩

/-- `next` on an exhausted tokenizer yields no token and keeps the
state. -/
theorem next_of_empty (t : tokenizer) (h : t.text = []) : t.next = (none, t) := by
  obtain ⟨txt⟩ := t
  simp only at h
  subst h
  rfl

/-- An exhausted tokenizer stays exhausted: every later call yields no
token. -/
theorem next_n_none_of_empty (t : tokenizer) (h : t.text = []) :
    ∀ k, (t.next_n k).1 = none := by
  intro k
  induction k with
  | zero => rw [show t.next_n 0 = t.next from rfl, next_of_empty t h]
  | succ k ih =>
    show ((t.next).2.next_n k).1 = none
    rw [next_of_empty t h]
    exact ih

/-- A failing `parse_quoted_string` empties the tokenizer. -/
theorem parse_quoted_string_fail (t : tokenizer)
    (h : (t.parse_quoted_string).1 = none) : (t.parse_quoted_string).2.text = [] := by
  unfold tokenizer.parse_quoted_string at h ⊢
  cases hq : quoted_len (t.text.headD nul) (t.text.drop 1) nul with
  | none => simp [hq]
  | some k =>
    rw [hq] at h
    have h' : (t.extract_token (k + 1) true).1 = none := h
    show (t.extract_token (k + 1) true).2.text = []
    unfold tokenizer.extract_token at h' ⊢
    by_cases hlen : k + 1 > t.text.length
    · simp [hlen]
    · simp [hlen] at h'

/-- A failing `parse_block` empties the tokenizer. -/
theorem parse_block_fail (t : tokenizer)
    (h : (t.parse_block).1 = none) : (t.parse_block).2.text = [] := by
  unfold tokenizer.parse_block at h ⊢
  cases hq : block_len 1 nul nul (t.text.drop 1) with
  | none => simp [hq]
  | some k =>
    rw [hq] at h
    have h' : (t.extract_token (k + 1) true).1 = none := h
    show (t.extract_token (k + 1) true).2.text = []
    unfold tokenizer.extract_token at h' ⊢
    by_cases hlen : k + 1 > t.text.length
    · simp [hlen]
    · simp [hlen] at h'

/-- C6: when the remaining text begins with a quote or an opening
bracket and that `next` call produces no token (an unterminated quote,
an unterminated block, or an unescaped unquoted semicolon inside a
block), the remaining text becomes empty and every subsequent call also
produces no token: the tokenizer is permanently exhausted. -/
theorem claim_C6 (t : tokenizer) (c : Char) (hc : t.text.head? = some c)
    (hk : c = dquote ∨ c = squote ∨ c = lbrace) (hfail : (t.next).1 = none) :
    (t.next).2.text = [] ∧ ∀ k, ((t.next).2.next_n k).1 = none := by
  have hempty : (t.next).2.text = [] := by
    obtain ⟨txt⟩ := t
    cases txt with
    | nil => simp at hc
    | cons c0 rest =>
      simp only [List.head?_cons, Option.some.injEq] at hc
      subst hc
      rcases hk with h | h | h
      all_goals subst h
      · have hb : dquote = dquote ∨ dquote = squote := Or.inl rfl
        simp only [tokenizer.next, if_pos hb] at hfail ⊢
        exact parse_quoted_string_fail _ hfail
      · have hb : squote = dquote ∨ squote = squote := Or.inr rfl
        simp only [tokenizer.next, if_pos hb] at hfail ⊢
        exact parse_quoted_string_fail _ hfail
      · have hb : ¬(lbrace = dquote ∨ lbrace = squote) := by decide
        simp only [tokenizer.next, if_neg hb, if_pos rfl] at hfail ⊢
        exact parse_block_fail _ hfail
  exact ⟨hempty, next_n_none_of_empty _ hempty⟩

/-- Witness for C6: an unterminated quote, an unterminated block, and
an unescaped unquoted semicolon inside a block. -/
theorem claim_C6_witness :
    (((⟨[dquote, 'a']⟩ : tokenizer).next).2.text = [] ∧
      ((((⟨[dquote, 'a']⟩ : tokenizer).next).2.next_n 3).1 = none)) ∧
    (((⟨[lbrace, 'a']⟩ : tokenizer).next).2.text = [] ∧
      ((((⟨[lbrace, 'a']⟩ : tokenizer).next).2.next_n 3).1 = none)) ∧
    (((⟨[lbrace, 'a', ';', 'b', rbrace]⟩ : tokenizer).next).2.text = [] ∧
      ((((⟨[lbrace, 'a', ';', 'b', rbrace]⟩ : tokenizer).next).2.next_n 3).1 = none)) :=
  ⟨⟨(claim_C6 _ dquote (by decide) (by decide) (by decide)).1,
    (claim_C6 _ dquote (by decide) (by decide) (by decide)).2 3⟩,
   ⟨(claim_C6 _ lbrace (by decide) (by decide) (by decide)).1,
    (claim_C6 _ lbrace (by decide) (by decide) (by decide)).2 3⟩,
   ⟨(claim_C6 _ lbrace (by decide) (by decide) (by decide)).1,
    (claim_C6 _ lbrace (by decide) (by decide) (by decide)).2 3⟩⟩

/-- C7, counterexample: the identifier portion of the registration
string `f x=1` is `f`, yet the query `f x` — a strict extension of that
identifier (obtainable as a quoted command-name token) — matches the
descriptor, so matching is not equality with the identifier. -/
theorem claim_C7_cex :
    spec_identifier "f x=1".toList = "f".toList ∧
    command_eq "f x=1".toList "f x".toList = true ∧
    "f x".toList ≠ "f".toList := by
  decide

/-- C7, amended: for queries free of terminator characters (which every
unquoted command-name token is), a query matches a descriptor exactly
when it equals the identifier portion of the registration string, the
part ending at the first terminator character; in particular such a
query that is a strict prefix or strict extension of the identifier
does not match. -/
theorem claim_C7 (reg q : List Char) (h : ∀ c ∈ q, is_ident_term c = false) :
    command_eq reg q = true ↔ q = spec_identifier reg := by
  induction q generalizing reg with
  | nil =>
    cases reg with
    | nil => simp [command_eq, spec_identifier, List.headD]; decide
    | cons r reg' =>
      by_cases hr : is_ident_term r
      · simp [command_eq, spec_identifier, List.takeWhile_cons, hr]
      · simp [command_eq, spec_identifier, List.takeWhile_cons, hr]
  | cons c q' ih =>
    have hc : is_ident_term c = false := h c (List.mem_cons_self c q')
    have hcnul : ¬c = nul := by
      intro hceq
      rw [hceq] at hc
      exact absurd hc (by decide)
    have h' : ∀ x ∈ q', is_ident_term x = false := fun x hx => h x (List.mem_cons_of_mem _ hx)
    cases reg with
    | nil => simp [command_eq, spec_identifier, List.headD, hcnul]
    | cons r reg' =>
      by_cases hcr : c = r
      · subst hcr
        simp [command_eq, spec_identifier, List.takeWhile_cons, hcnul, hc, ih reg' h']
      · by_cases hr : is_ident_term r
        · simp [command_eq, spec_identifier, List.takeWhile_cons, hcnul,
            (fun hrc => hcr hrc.symm : ¬(r = c)), hcr, hr]
        · simp [command_eq, spec_identifier, List.takeWhile_cons, hcnul, hcr, hr]

/-- Witness for C7: the query `f` matches the registration `f x=1`. -/
theorem claim_C7_witness : command_eq "f x=1".toList "f".toList = true :=
  (claim_C7 "f x=1".toList "f".toList (by decide)).mpr (by decide)

/-- The last element of a cons followed by an appended singleton. -/
theorem getLast_cons_append_singleton (a b : α) (l : List α) :
    (a :: (l ++ [b])).getLast? = some b := by
  rw [← List.cons_append, List.getLast?_concat]

/-- The enclosing quote chosen for string output is never the
backslash. -/
theorem quote_choice_ne_backslash (value : List Char) : quote_choice value ≠ backslash := by
  unfold quote_choice
  by_cases h : value.countP (· = dquote) ≤ value.countP (· = squote)
  · rw [if_pos h]; decide
  · rw [if_neg h]; decide

/-- Length of the escaped body written between the enclosing quotes:
one extra byte per occurrence of the chosen quote or of a backslash. -/
theorem escaped_body_length (q : Char) (hq : q ≠ backslash) (value : List Char) :
    ((value.map fun ch =>
      if ch = q ∨ ch = backslash then [backslash, ch] else [ch]).flatten).length
      = value.length + value.countP (· = q) + value.countP (· = backslash) := by
  induction value with
  | nil => simp
  | cons c v ih =>
    by_cases h1 : c = q ∨ c = backslash
    · rcases h1 with h1 | h1
      · subst h1
        simp only [List.map_cons, List.flatten_cons, List.length_append, ih,
          List.countP_cons, List.length_cons]
        have : ¬(c = backslash) := hq ∘ fun h => h ▸ rfl
        simp [this]
        omega
      · subst h1
        simp only [List.map_cons, List.flatten_cons, List.length_append, ih,
          List.countP_cons, List.length_cons]
        have : ¬(backslash = q) := fun h => hq h.symm
        simp [this]
        omega
    · push_neg at h1
      simp only [List.map_cons, List.flatten_cons, List.length_append, ih,
        List.countP_cons, List.length_cons]
      simp [h1.1, h1.2]
      omega

/-- C9, amended: formatting a raw string always encloses it in the
quote kind occurring less often inside it, escaping that quote and the
backslash; it succeeds exactly when the buffer holds the value plus
three bytes (two quotes and the NUL) plus one byte per escape the size
check anticipates (the larger of the two quote counts), and the output
then starts and ends with the chosen quote and grows by one byte per
escaped character. -/
theorem claim_C9 (buff_size : Nat) (value : List Char) :
    ((to_chars_string buff_size value).isSome ↔
      value.length + 3 +
        max (value.countP (· = dquote)) (value.countP (· = squote)) ≤ buff_size) ∧
    ∀ out, to_chars_string buff_size value = some out →
      out.length = value.length + 2 + value.countP (· = quote_choice value)
          + value.countP (· = backslash) ∧
      out.head? = some (quote_choice value) ∧
      out.getLast? = some (quote_choice value) := by
  unfold to_chars_string
  by_cases hfit :
      buff_size < value.length + 3 + max (value.countP (· = dquote)) (value.countP (· = squote))
  · rw [if_pos hfit]
    constructor
    · simp
      omega
    · intro out hout
      simp at hout
  · rw [if_neg hfit]
    constructor
    · simp
      omega
    · intro out hout
      simp only [Option.some.injEq] at hout
      subst hout
      refine ⟨?_, ?_, ?_⟩
      · simp [escaped_body_length (quote_choice value) (quote_choice_ne_backslash value) value]
        omega
      · simp
      · exact getLast_cons_append_singleton _ _ _

/-- Witness for C9: formatting `abc` into a 64-byte buffer. -/
theorem claim_C9_witness :
    ("\"abc\"".toList).length = ("abc".toList).length + 2
        + ("abc".toList).countP (· = quote_choice "abc".toList)
        + ("abc".toList).countP (· = backslash) ∧
    ("\"abc\"".toList).head? = some (quote_choice "abc".toList) ∧
    ("\"abc\"".toList).getLast? = some (quote_choice "abc".toList) :=
  (claim_C9 64 "abc".toList).2 _ (by decide)

/-- Binding one argument never touches the buffer fields or the matched
command of the report. -/
theorem parse_arg_keeps (args d : tokenizer) (o : output) :
    ((parse_arg args d o).2.2.2).buffer_size = o.buffer_size ∧
    ((parse_arg args d o).2.2.2).buffer = o.buffer ∧
    ((parse_arg args d o).2.2.2).cmd = o.cmd := by
  unfold parse_arg
  cases h : (next_arg_value args d).1 with
  | none => simp [h]
  | some s => cases hs : from_string_int s <;> simp [h, hs]

/-- Binding a whole parameter list never touches the buffer fields or
the matched command of the report. -/
theorem make_args_tuple_keeps (n : Nat) :
    ∀ (args d : tokenizer) (o : output),
    ((make_args_tuple n args d o).2.2.2).buffer_size = o.buffer_size ∧
    ((make_args_tuple n args d o).2.2.2).buffer = o.buffer ∧
    ((make_args_tuple n args d o).2.2.2).cmd = o.cmd := by
  induction n with
  | zero => intro args d o; simp [make_args_tuple]
  | succ n ih =>
    intro args d o
    have h1 := parse_arg_keeps args d o
    have h2 := ih (parse_arg args d o).2.1 (parse_arg args d o).2.2.1 (parse_arg args d o).2.2.2
    exact ⟨h2.1.trans h1.1, h2.2.1.trans h1.2.1, h2.2.2.trans h1.2.2⟩

/-- An overload attempt reports the candidate it was reset to. -/
theorem invoker_call_cmd (c : command) (nm : List Char) (tok : tokenizer) (o : output) :
    ((invoker_call c nm tok o).2.1).cmd = o.cmd := by
  have h := make_args_tuple_keeps c.arg_count tok
    (tokenizer.make (c.name_and_args.drop nm.length)) o
  unfold invoker_call
  cases he : (make_args_tuple c.arg_count tok
      (tokenizer.make (c.name_and_args.drop nm.length)) o).2.2.2.has_error with
  | true => simp [he, h.2.2]
  | false =>
    by_cases hbz : (make_args_tuple c.arg_count tok
        (tokenizer.make (c.name_and_args.drop nm.length)) o).2.2.2.buffer_size ≠ 0
    · cases ht : to_chars_int
          (make_args_tuple c.arg_count tok
            (tokenizer.make (c.name_and_args.drop nm.length)) o).2.2.2.buffer_size
          (c.handler (make_args_tuple c.arg_count tok
            (tokenizer.make (c.name_and_args.drop nm.length)) o).1) <;>
        simp [he, hbz, ht, h.2.2]
    · simp [he, hbz, h.2.2]

/-- A failed overload attempt leaves the caller buffer fields of the
report unchanged. -/
theorem invoker_call_false_keeps (c : command) (nm : List Char) (tok : tokenizer)
    (o : output) (hfail : (invoker_call c nm tok o).1 = false) :
    ((invoker_call c nm tok o).2.1).buffer_size = o.buffer_size ∧
    ((invoker_call c nm tok o).2.1).buffer = o.buffer := by
  have h := make_args_tuple_keeps c.arg_count tok
    (tokenizer.make (c.name_and_args.drop nm.length)) o
  unfold invoker_call at hfail ⊢
  cases he : (make_args_tuple c.arg_count tok
      (tokenizer.make (c.name_and_args.drop nm.length)) o).2.2.2.has_error with
  | true => simp [he, h.1, h.2.1]
  | false => simp [he] at hfail

/-- The reset before an overload attempt reads only the buffer fields
of the report. -/
theorem reset_for_congr (o o' : output) (h1 : o.buffer_size = o'.buffer_size)
    (h2 : o.buffer = o'.buffer) (i : Nat) : o.reset_for i = o'.reset_for i := by
  simp [output.reset_for, h1, h2]

/-- The head of a list of the shape `l ++ c :: post` lies in
`l ++ [c]`. -/
theorem head_of_append_cons_mem {α : Type} (l : List α) (c : α) (post : List α)
    (c' : α) (rest' : List α) (h : l ++ c :: post = c' :: rest') : c' ∈ l ++ [c] := by
  cases l with
  | nil =>
    simp only [List.nil_append] at h
    injection h with h1 _
    simp [h1]
  | cons p l' =>
    simp only [List.cons_append] at h
    injection h with h1 _
    simp [← h1]

/-- The overload loop commits to the first candidate in table order
whose whole parameter list binds successfully: with all earlier
same-named candidates failing, it succeeds, reports having tried
exactly them, and records the successful candidate. -/
theorem run_overloads_first_success (name : List Char) (tok : tokenizer) :
    ∀ (pre : List command) (c : command) (post : List command) (idx : Nat) (o : output),
    (∀ x ∈ pre ++ [c], command_eq x.name_and_args name = true) →
    (∀ j : Fin pre.length,
      (invoker_call (pre.get j) name tok (o.reset_for (idx + j))).1 = false) →
    (invoker_call c name tok (o.reset_for (idx + pre.length))).1 = true →
    (run_overloads name tok (pre ++ c :: post) idx o).1 = true ∧
    (run_overloads name tok (pre ++ c :: post) idx o).2.1 = pre.length + 1 ∧
    ((run_overloads name tok (pre ++ c :: post) idx o).2.2.1).cmd = some (idx + pre.length) := by
  intro pre
  induction pre with
  | nil =>
    intro c post idx o _ _ hs
    have hs' : (invoker_call c name tok (o.reset_for idx)).1 = true := by simpa using hs
    have hcmd := invoker_call_cmd c name tok (o.reset_for idx)
    have hcmd2 : ((invoker_call c name tok (o.reset_for idx)).2.1).cmd = some idx := by
      rw [hcmd]; rfl
    simp only [List.nil_append, List.length_nil, Nat.add_zero]
    unfold run_overloads
    refine ⟨?_, ?_, ?_⟩ <;> simp [hs', hcmd2]
  | cons p pre' ih =>
    intro c post idx o hm hf hs
    have hp_false : (invoker_call p name tok (o.reset_for idx)).1 = false := by
      have h0 := hf ⟨0, by simp⟩
      simpa using h0
    have hkeep := invoker_call_false_keeps p name tok (o.reset_for idx) hp_false
    have hbuf1 : ((invoker_call p name tok (o.reset_for idx)).2.1).buffer_size
        = o.buffer_size := hkeep.1
    have hbuf2 : ((invoker_call p name tok (o.reset_for idx)).2.1).buffer = o.buffer := hkeep.2
    have hreset : ∀ i,
        ((invoker_call p name tok (o.reset_for idx)).2.1).reset_for i = o.reset_for i :=
      fun i => reset_for_congr _ _ hbuf1 hbuf2 i
    have hm' : ∀ x ∈ pre' ++ [c], command_eq x.name_and_args name = true := by
      intro x hx
      refine hm x ?_
      rcases List.mem_append.mp hx with hx1 | hx1
      · exact List.mem_append.mpr (Or.inl (List.mem_cons_of_mem p hx1))
      · exact List.mem_append.mpr (Or.inr hx1)
    have hf' : ∀ j : Fin pre'.length,
        (invoker_call (pre'.get j) name tok
          (((invoker_call p name tok (o.reset_for idx)).2.1).reset_for
            (idx + 1 + j.val))).1 = false := by
      intro j
      rw [hreset]
      have hj := hf ⟨j.val + 1, by simp [Nat.succ_lt_succ j.isLt]⟩
      have harith : idx + (j.val + 1) = idx + 1 + j.val := by omega
      simpa [harith] using hj
    have hs' : (invoker_call c name tok
        (((invoker_call p name tok (o.reset_for idx)).2.1).reset_for
          (idx + 1 + pre'.length))).1 = true := by
      rw [hreset]
      have harith : idx + (p :: pre').length = idx + 1 + pre'.length := by
        simp only [List.length_cons]
        omega
      rw [harith] at hs
      exact hs
    have ihr := ih c post (idx + 1) ((invoker_call p name tok (o.reset_for idx)).2.1) hm' hf' hs'
    simp only [List.cons_append]
    unfold run_overloads
    cases hrest : pre' ++ c :: post with
    | nil => exact absurd hrest (by simp)
    | cons c' rest' =>
      have hc' : command_eq c'.name_and_args name = true := by
        refine hm c' ?_
        have hmem := head_of_append_cons_mem pre' c post c' rest' hrest
        rcases List.mem_append.mp hmem with hx1 | hx1
        · exact List.mem_append.mpr (Or.inl (List.mem_cons_of_mem p hx1))
        · exact List.mem_append.mpr (Or.inr hx1)
      rw [hrest] at ihr
      refine ⟨?_, ?_, ?_⟩ <;>
        simp only [hp_false, Bool.false_eq_true, if_false, hc', if_true, List.length_cons]
      · simpa using ihr.1
      · have := ihr.2.1
        simp only [this]
      · have := ihr.2.2
        simp only [this]
        have harith : idx + 1 + pre'.length = idx + (pre'.length + 1) := by omega
        rw [harith]


/-- C1: with same-named overloads of four, three and two integer
parameters registered in that order, `f 1 2` invokes the two-argument
overload and succeeds, `f 1 2 3` invokes the three-argument overload
and succeeds, and `f 1` invokes no handler and reports
`no_matching_overload`; in general the overload loop tries same-named
descriptors strictly in table order and commits to the first whose full
parameter list binds successfully. -/
theorem claim_C1 :
    ((execute_buf overload_cmds "f 1 2".toList 0).1 = .success ∧
      (execute_buf overload_cmds "f 1 2".toList 0).2.1.cmd = some 2 ∧
      (execute_buf overload_cmds "f 1 2".toList 0).2.2 = some [1, 2]) ∧
    ((execute_buf overload_cmds "f 1 2 3".toList 0).1 = .success ∧
      (execute_buf overload_cmds "f 1 2 3".toList 0).2.1.cmd = some 1 ∧
      (execute_buf overload_cmds "f 1 2 3".toList 0).2.2 = some [1, 2, 3]) ∧
    ((execute_buf overload_cmds "f 1".toList 0).1 = .no_matching_overload ∧
      (execute_buf overload_cmds "f 1".toList 0).2.2 = none) ∧
    (∀ (pre : List command) (c : command) (post : List command) (name : List Char)
        (tok : tokenizer) (idx : Nat) (o : output),
      (∀ x ∈ pre ++ [c], command_eq x.name_and_args name = true) →
      (∀ j : Fin pre.length,
        (invoker_call (pre.get j) name tok (o.reset_for (idx + j))).1 = false) →
      (invoker_call c name tok (o.reset_for (idx + pre.length))).1 = true →
      (run_overloads name tok (pre ++ c :: post) idx o).1 = true ∧
      (run_overloads name tok (pre ++ c :: post) idx o).2.1 = pre.length + 1 ∧
      ((run_overloads name tok (pre ++ c :: post) idx o).2.2.1).cmd
        = some (idx + pre.length)) :=
  ⟨⟨by decide, by decide, by decide⟩,
   ⟨by decide, by decide, by decide⟩,
   ⟨by decide, by decide⟩,
   fun pre c post name tok idx o => run_overloads_first_success name tok pre c post idx o⟩

/-- Witness for C1's general clause: the two earlier, wider overloads
of the `f` group fail on the argument stream of `f 1 2` and the loop
commits to the third. -/
theorem claim_C1_witness :
    (run_overloads "f".toList (args_tok_of "f 1 2".toList)
      ([⟨"f".toList, 4, sum_handler⟩, ⟨"f".toList, 3, sum_handler⟩]
        ++ (⟨"f".toList, 2, sum_handler⟩ : command) :: []) 0 (output.init 0)).1 = true ∧
    (run_overloads "f".toList (args_tok_of "f 1 2".toList)
      ([⟨"f".toList, 4, sum_handler⟩, ⟨"f".toList, 3, sum_handler⟩]
        ++ (⟨"f".toList, 2, sum_handler⟩ : command) :: []) 0 (output.init 0)).2.1 = 3 ∧
    ((run_overloads "f".toList (args_tok_of "f 1 2".toList)
      ([⟨"f".toList, 4, sum_handler⟩, ⟨"f".toList, 3, sum_handler⟩]
        ++ (⟨"f".toList, 2, sum_handler⟩ : command) :: []) 0 (output.init 0)).2.2.1).cmd
      = some 2 := by
  have h := claim_C1.2.2.2
    [⟨"f".toList, 4, sum_handler⟩, ⟨"f".toList, 3, sum_handler⟩]
    ⟨"f".toList, 2, sum_handler⟩ [] "f".toList (args_tok_of "f 1 2".toList) 0
    (output.init 0) (by decide) (by decide) (by decide)
  simpa using h

/-- C2: when the name group was located but no overload succeeded, a
single tried candidate surfaces its own failure
(`not_enough_arguments` when that attempt set the flag, otherwise
`argument_parsing_error`), while two or more tried candidates collapse
to `no_matching_overload` regardless of the individual reasons. -/
theorem claim_C2 (cmds : List command) (line : List Char) (o : output) (i : Nat)
    (hfind : cmds.findIdx?
      (fun c => command_eq c.name_and_args (command_name_of line)) = some i)
    (hfail : (run_overloads (command_name_of line) (args_tok_of line)
      (cmds.drop i) i o).1 = false) :
    ((run_overloads (command_name_of line) (args_tok_of line) (cmds.drop i) i o).2.1 = 1 →
      (execute cmds line o).1 =
        (if ((run_overloads (command_name_of line) (args_tok_of line)
            (cmds.drop i) i o).2.2.1).not_enough_arguments
         then result.not_enough_arguments else result.argument_parsing_error)) ∧
    (2 ≤ (run_overloads (command_name_of line) (args_tok_of line) (cmds.drop i) i o).2.1 →
      (execute cmds line o).1 = .no_matching_overload) := by
  unfold execute
  dsimp only
  rw [hfind]
  constructor
  · intro h1
    simp [hfail, h1]
  · intro h2
    have hne : ¬(run_overloads (command_name_of line) (args_tok_of line)
        (cmds.drop i) i o).2.1 = 1 := by omega
    have hlt : 1 < (run_overloads (command_name_of line) (args_tok_of line)
        (cmds.drop i) i o).2.1 := by omega
    simp [hfail, hne, hlt]

/-- Witness for C2: a lone `sum` candidate starved of its second token
reports `not_enough_arguments`; the three-candidate `f` group starved
on `f 1` reports `no_matching_overload`. -/
theorem claim_C2_witness :
    (execute sum_cmds "sum 5".toList (output.init 0)).1 = .not_enough_arguments ∧
    (execute overload_cmds "f 1".toList (output.init 0)).1 = .no_matching_overload := by
  constructor
  · have h := (claim_C2 sum_cmds "sum 5".toList (output.init 0) 0
      (by decide) (by decide)).1 (by decide)
    exact h.trans (by decide)
  · exact (claim_C2 overload_cmds "f 1".toList (output.init 0) 0
      (by decide) (by decide)).2 (by decide)

/-- A character outside every class the tokenizer treats specially:
quotes, braces, backslash, semicolon and the equals sign. -/
def good_char (c : Char) : Bool :=
  !(c = dquote || c = squote || c = lbrace || c = rbrace || c = backslash
    || c = ';' || c = '=')

/-- Unpacking `good_char`. -/
theorem good_char_spec (c : Char) (h : good_char c = true) :
    ¬c = dquote ∧ ¬c = squote ∧ ¬c = lbrace ∧ ¬c = rbrace ∧ ¬c = backslash ∧
    ¬c = ';' ∧ ¬c = '=' := by
  simp only [good_char, Bool.not_eq_true', Bool.or_eq_false_iff,
    decide_eq_false_iff_not] at h
  obtain ⟨⟨⟨⟨⟨⟨h1, h2⟩, h3⟩, h4⟩, h5⟩, h6⟩, h7⟩ := h
  exact ⟨h1, h2, h3, h4, h5, h6, h7⟩

/-- On characters outside the special classes, identifier terminators
are exactly the whitespace characters. -/
theorem ident_term_eq_ws_of_good (c : Char) (h : good_char c = true) :
    is_ident_term c = is_whitespace c := by
  obtain ⟨h1, h2, h3, h4, _, h6, h7⟩ := good_char_spec c h
  simp [is_ident_term, h1, h2, h3, h4, h6, h7]

/-- The two sides of splitting a list at the end of its longest
`p`-prefix measure up to the whole list. -/
theorem length_takeWhile_add (p : Char → Bool) (l : List Char) :
    (l.takeWhile p).length + (l.dropWhile p).length = l.length := by
  have h := congrArg List.length (List.takeWhile_append_dropWhile p l)
  rw [List.length_append] at h
  exact h

/-- `takeWhile` only inspects predicate values on the list. -/
theorem takeWhile_congr_mem (p q : Char → Bool) :
    ∀ l : List Char, (∀ c ∈ l, p c = q c) → l.takeWhile p = l.takeWhile q := by
  intro l
  induction l with
  | nil => intro _; rfl
  | cons c rest ih =>
    intro h
    have hc := h c (List.mem_cons_self c rest)
    rw [List.takeWhile_cons, List.takeWhile_cons, hc,
      ih (fun x hx => h x (List.mem_cons_of_mem _ hx))]

/-- `dropWhile` only inspects predicate values on the list. -/
theorem dropWhile_congr_mem (p q : Char → Bool) :
    ∀ l : List Char, (∀ c ∈ l, p c = q c) → l.dropWhile p = l.dropWhile q := by
  intro l
  induction l with
  | nil => intro _; rfl
  | cons c rest ih =>
    intro h
    have hc := h c (List.mem_cons_self c rest)
    rw [List.dropWhile_cons, List.dropWhile_cons, hc,
      ih (fun x hx => h x (List.mem_cons_of_mem _ hx))]

/-- The head surviving a `dropWhile` falsifies the predicate. -/
theorem dropWhile_head_false (p : Char → Bool) :
    ∀ (l : List Char) (c : Char) (r : List Char), l.dropWhile p = c :: r → p c = false := by
  intro l
  induction l with
  | nil => intro c r h; simp at h
  | cons x rest ih =>
    intro c r h
    rw [List.dropWhile_cons] at h
    by_cases hx : p x
    · rw [if_pos hx] at h
      exact ih c r h
    · rw [if_neg hx] at h
      injection h with h1 _
      rw [← h1]
      simpa using hx

/-- Dropping a prefix twice is the same as dropping it once. -/
theorem dropWhile_idem (p : Char → Bool) (l : List Char) :
    (l.dropWhile p).dropWhile p = l.dropWhile p := by
  cases h : l.dropWhile p with
  | nil => rfl
  | cons c r =>
    have hc := dropWhile_head_false p l c r h
    rw [List.dropWhile_cons, if_neg (by simp [hc])]

/-- Taking as many elements as the longest `p`-prefix yields that
prefix. -/
theorem take_length_takeWhile (p : Char → Bool) (l : List Char) :
    l.take ((l.takeWhile p).length) = l.takeWhile p := by
  have h := List.take_left (l.takeWhile p) (l.dropWhile p)
  rw [List.takeWhile_append_dropWhile] at h
  exact h

/-- Dropping as many elements as the longest `p`-prefix yields the
remainder. -/
theorem drop_length_takeWhile (p : Char → Bool) (l : List Char) :
    l.drop ((l.takeWhile p).length) = l.dropWhile p := by
  have h := List.drop_left (l.takeWhile p) (l.dropWhile p)
  rw [List.takeWhile_append_dropWhile] at h
  exact h

/-- Without backslashes the identifier scan is a plain `takeWhile` up
to the first terminator. -/
theorem ident_len_no_backslash :
    ∀ (s : List Char) (prev : Char), backslash ∉ s → prev ≠ backslash →
    ident_len s prev = (s.takeWhile (fun c => !is_ident_term c)).length := by
  intro s
  induction s with
  | nil => intro prev _ _; rfl
  | cons c rest ih =>
    intro prev hbs hprev
    have hcb : c ≠ backslash := fun h => hbs (h ▸ List.mem_cons_self c rest)
    have hbs' : backslash ∉ rest := fun h => hbs (List.mem_cons_of_mem _ h)
    simp only [ident_len, if_pos hprev]
    by_cases hterm : is_ident_term c
    · simp [hterm, List.takeWhile_cons]
    · have hterm' : is_ident_term c = false := by
        cases hv : is_ident_term c
        · rfl
        · exact absurd hv hterm
      rw [if_neg hterm, ih c hbs' hcb, List.takeWhile_cons]
      simp [hterm']

/-- Words are insensitive to leading whitespace. -/
theorem words_of_dropWhile (s : List Char) :
    words_of (s.dropWhile is_whitespace) = words_of s := by
  induction s with
  | nil => rfl
  | cons c rest ih =>
    by_cases h : is_whitespace c
    · rw [List.dropWhile_cons, if_pos h, ih]
      show _ = words_go [] (c :: rest)
      simp [words_of, words_go, h]
    · rw [List.dropWhile_cons, if_neg h]

/-- The word accumulator flushes the pending word extended by the
longest non-whitespace run. -/
theorem words_go_acc :
    ∀ (s cur : List Char), cur ≠ [] →
    words_go cur s = (cur.reverse ++ s.takeWhile (fun c => !is_whitespace c)) ::
      words_of (s.dropWhile (fun c => !is_whitespace c)) := by
  intro s
  induction s with
  | nil =>
    intro cur hcur
    simp [words_go, words_of, hcur]
  | cons c rest ih =>
    intro cur hcur
    by_cases h : is_whitespace c
    · have hne : cur.isEmpty = false := by
        cases cur
        · exact absurd rfl hcur
        · rfl
      have hnw : (!is_whitespace c) = false := by simp [h]
      simp [words_go, h, hne, List.takeWhile_cons, List.dropWhile_cons, hnw, words_of]
    · have hnw : (!is_whitespace c) = true := by simp [h]
      rw [show words_go cur (c :: rest) = words_go (c :: cur) rest by simp [words_go, h]]
      rw [ih (c :: cur) (by simp)]
      rw [List.takeWhile_cons, List.dropWhile_cons]
      simp [hnw]

/-- A line starting with a non-whitespace character begins with its
longest non-whitespace run as first word. -/
theorem words_of_cons (c : Char) (rest : List Char) (h : is_whitespace c = false) :
    words_of (c :: rest) = ((c :: rest).takeWhile (fun x => !is_whitespace x)) ::
      words_of ((c :: rest).dropWhile (fun x => !is_whitespace x)) := by
  show words_go [] (c :: rest) = _
  rw [show words_go [] (c :: rest) = words_go [c] rest by simp [words_go, h]]
  rw [words_go_acc rest [c] (by simp)]
  rw [List.takeWhile_cons, List.dropWhile_cons]
  simp [h]

/-- Round-trip core: on text free of special characters and of leading
whitespace, draining the tokenizer yields exactly the
whitespace-separated words. -/
theorem tokens_good :
    ∀ (fuel : Nat) (s : List Char),
    (∀ c ∈ s, good_char c = true) → s.dropWhile is_whitespace = s → s.length < fuel →
    tokens_fuel ⟨s⟩ fuel = words_of s := by
  intro fuel
  induction fuel with
  | zero => intro s _ _ h; omega
  | succ k ih =>
    intro s hgood hlead hlen
    cases s with
    | nil => rfl
    | cons c rest =>
      have hws : is_whitespace c = false := by
        cases hv : is_whitespace c
        · rfl
        · exfalso
          rw [List.dropWhile_cons, if_pos hv] at hlead
          have h1 := congrArg List.length hlead
          have h2 := (List.dropWhile_sublist (l := rest) is_whitespace).length_le
          simp at h1
          omega
      obtain ⟨h1d, h1s, h2, h3, h5, h4, h6⟩ :=
        good_char_spec c (hgood c (List.mem_cons_self c rest))
      have hnotq : ¬(c = dquote ∨ c = squote) := by
        rintro (h | h)
        · exact h1d h
        · exact h1s h
      have hback : backslash ∉ c :: rest := by
        intro hmem
        exact (good_char_spec backslash (hgood backslash hmem)).2.2.2.2.1 rfl
      have hident : ident_len (c :: rest) nul =
          ((c :: rest).takeWhile (fun x => !is_ident_term x)).length :=
        ident_len_no_backslash (c :: rest) nul hback (by decide)
      have htw : (c :: rest).takeWhile (fun x => !is_ident_term x)
          = (c :: rest).takeWhile (fun x => !is_whitespace x) := by
        refine takeWhile_congr_mem _ _ (c :: rest) ?_
        intro x hx
        rw [ident_term_eq_ws_of_good x (hgood x hx)]
      have hlenle : ((c :: rest).takeWhile (fun x => !is_whitespace x)).length
          ≤ (c :: rest).length := by
        have := length_takeWhile_add (fun x => !is_whitespace x) (c :: rest)
        omega
      have hnext : tokenizer.next ⟨c :: rest⟩ =
          (some ((c :: rest).takeWhile (fun x => !is_whitespace x)),
           ⟨((c :: rest).dropWhile (fun x => !is_whitespace x)).dropWhile is_whitespace⟩) := by
        show (if c = dquote ∨ c = squote then tokenizer.parse_quoted_string ⟨c :: rest⟩
          else if c = lbrace then tokenizer.parse_block ⟨c :: rest⟩
          else if c = '=' then tokenizer.extract_token ⟨c :: rest⟩ 1 false
          else if c = ';' then (none, ⟨c :: rest⟩)
          else tokenizer.parse_identifier ⟨c :: rest⟩) = _
        rw [if_neg hnotq, if_neg h2, if_neg h6, if_neg h4]
        unfold tokenizer.parse_identifier
        rw [hident, htw]
        unfold tokenizer.extract_token
        rw [if_neg (Nat.not_lt.mpr hlenle)]
        rw [take_length_takeWhile, drop_length_takeWhile]
        rfl
      show (match tokenizer.next ⟨c :: rest⟩ with
        | (none, _) => []
        | (some tok, t') => tok :: tokens_fuel t' k) = words_of (c :: rest)
      rw [hnext]
      show (List.takeWhile (fun x => !is_whitespace x) (c :: rest)) ::
          tokens_fuel ⟨List.dropWhile is_whitespace
            (List.dropWhile (fun x => !is_whitespace x) (c :: rest))⟩ k
        = words_of (c :: rest)
      have hgoodd : ∀ x ∈ ((c :: rest).dropWhile (fun x => !is_whitespace x)).dropWhile
          is_whitespace, good_char x = true := fun x hx =>
        hgood x ((List.dropWhile_sublist _).mem ((List.dropWhile_sublist _).mem hx))
      have hleadd := dropWhile_idem is_whitespace
        ((c :: rest).dropWhile (fun x => !is_whitespace x))
      have hlend : (((c :: rest).dropWhile (fun x => !is_whitespace x)).dropWhile
          is_whitespace).length < k := by
        have e1 := length_takeWhile_add (fun x => !is_whitespace x) (c :: rest)
        have htwpos : 0 < ((c :: rest).takeWhile (fun x => !is_whitespace x)).length := by
          rw [List.takeWhile_cons, if_pos (by simp [hws])]
          simp
        have hle2 : ((((c :: rest).dropWhile (fun x => !is_whitespace x)).dropWhile
            is_whitespace)).length
            ≤ ((c :: rest).dropWhile (fun x => !is_whitespace x)).length :=
          (List.dropWhile_sublist _).length_le
        simp only [List.length_cons] at e1 hlen ⊢
        omega
      rw [ih _ hgoodd hleadd hlend]
      rw [words_of_cons c rest hws]
      rw [← words_of_dropWhile ((c :: rest).dropWhile (fun x => !is_whitespace x))]

/-- C8, counterexample: the input `a=b` contains no quote, bracket or
backslash, yet draining the tokenizer does not reproduce its
whitespace/comma-separated words (`a=b` splits into `a`, `=`, `b`). -/
theorem claim_C8_cex :
    (∀ c ∈ "a=b".toList,
      ¬(c = dquote ∨ c = squote ∨ c = lbrace ∨ c = rbrace ∨ c = backslash)) ∧
    tokens_fuel (tokenizer.make "a=b".toList) ("a=b".toList.length + 1)
      ≠ words_of "a=b".toList := by
  decide

/-- C8, amended: for input free of quotes, brackets, backslashes,
semicolons and equals signs, repeatedly calling `next` yields exactly
the whitespace/comma-separated words of the input, verbatim and in
order, and then only absence, whatever extra fuel the drain loop is
given. -/
theorem claim_C8 (s : List Char) (h : ∀ c ∈ s, good_char c = true) (k : Nat) :
    tokens_fuel (tokenizer.make s) (s.length + 1 + k) = words_of s := by
  have hgood' : ∀ c ∈ s.dropWhile is_whitespace, good_char c = true := fun c hc =>
    h c ((List.dropWhile_sublist _).mem hc)
  have hlen : (s.dropWhile is_whitespace).length < s.length + 1 + k := by
    have := (List.dropWhile_sublist (l := s) is_whitespace).length_le
    omega
  have hmain := tokens_good (s.length + 1 + k) (s.dropWhile is_whitespace) hgood'
    (dropWhile_idem _ s) hlen
  show tokens_fuel ⟨s.dropWhile is_whitespace⟩ (s.length + 1 + k) = words_of s
  rw [hmain]
  exact words_of_dropWhile s

/-- Witness for C8 on `ab cd`: two words come back verbatim. -/
theorem claim_C8_witness :
    tokens_fuel (tokenizer.make "ab cd".toList) ("ab cd".toList.length + 1 + 0)
      = words_of "ab cd".toList :=
  claim_C8 "ab cd".toList (by decide) 0

end Conco
